import Mathlib

/-!
Verification of the document chunking and vector-store retrieval pipeline
(`app/ingestion.py`, `app/vector_store.py`).

Texts are modelled as `List Char`.  Python's `str.strip()` whitespace set is
modelled by the six ASCII whitespace characters.  Scores (floats in the
source) are modelled as rationals.  The remote embedding provider and the
vector index are external services; they are modelled as oracles (a response
sequence for the HTTP embedding calls, an `Except`-valued call for the index,
a point list for the index state).
-/

set_option maxRecDepth 100000
set_option maxHeartbeats 1000000

namespace FinDoc

/-- The six ASCII whitespace characters recognised by Python's `str.strip()`
(Unicode whitespace is not modelled). -/
def isWS (c : Char) : Bool :=
  c == ' ' || c == '\t' || c == '\n' || c == '\r' || c == '\x0b' || c == '\x0c'

/-- Python `s.strip()`: drop leading and trailing whitespace. -/
def pyStrip (cs : List Char) : List Char :=
  ((cs.dropWhile isWS).reverse.dropWhile isWS).reverse

/-- Python `s.rstrip()`: drop trailing whitespace only; used to reason about
`pyStrip` on strings whose first character is not whitespace. -/
def rstripWS (cs : List Char) : List Char :=
  (cs.reverse.dropWhile isWS).reverse

/-- Erase every whitespace character.  Two texts are "equal modulo
whitespace" when their `removeWS` images coincide. -/
def removeWS (cs : List Char) : List Char :=
  cs.filter (fun c => !isWS c)

/-- Constant from `ingestion.py` line 15: `CHUNK_SIZE = 2_000`. -/
def CHUNK_SIZE : Nat := 2000

/-- Constant from `ingestion.py` line 16: `OVERLAP = 200`. -/
def OVERLAP : Nat := 200

/-- Python `s[-n:]` for positive `n`: the last `n` characters. -/
def lastN (n : Nat) (cs : List Char) : List Char :=
  cs.drop (cs.length - n)

/--
One scanning pass of `re.split` with the pattern `(\n{2,}|\. |\? |\! )`
(`ingestion.py` line 72), keeping the captured delimiters as parts, exactly
as Python's `re.split` with a capture group does: at each position the
alternatives are tried in order (a maximal run of two-or-more newlines, then
". ", "? ", "! ").  `acc` is the reversed text accumulated for the current
non-delimiter part.  The fuel argument only makes the recursion structural;
every caller passes enough fuel (one unit per character) for the scan to
finish.
-/
def splitGoF : Nat → List Char → List Char → List (List Char)
  | 0, acc, rest => [acc.reverse ++ rest]
  | fuel + 1, acc, rest =>
    match rest with
    | [] => [acc.reverse]
    | '\n' :: '\n' :: r =>
      acc.reverse :: ('\n' :: '\n' :: r.takeWhile (fun c => c == '\n')) ::
        splitGoF fuel [] (r.dropWhile (fun c => c == '\n'))
    | '.' :: ' ' :: r => acc.reverse :: ['.', ' '] :: splitGoF fuel [] r
    | '?' :: ' ' :: r => acc.reverse :: ['?', ' '] :: splitGoF fuel [] r
    | '!' :: ' ' :: r => acc.reverse :: ['!', ' '] :: splitGoF fuel [] r
    | c :: r => splitGoF fuel (c :: acc) r

/-- Model of `_delim.split(text)`: the alternating text/delimiter parts. -/
def splitParts (text : List Char) : List (List Char) :=
  splitGoF (text.length + 1) [] text

/-- A text in which no split delimiter can start: none of its characters is
a newline or sentence-ending punctuation mark. -/
def noDelim (cs : List Char) : Prop :=
  ∀ c ∈ cs, c ≠ '\n' ∧ c ≠ '.' ∧ c ≠ '?' ∧ c ≠ '!'

/-- Decimal digits for the id interpolation `f"{doc_id}_c{idx}"`. -/
def digitChar : Nat → Char
  | 0 => '0' | 1 => '1' | 2 => '2' | 3 => '3' | 4 => '4'
  | 5 => '5' | 6 => '6' | 7 => '7' | 8 => '8' | 9 => '9'
  | _ => '*'

/-- Decimal representation of a `Nat` (fuel-structured so that the kernel
can evaluate it). -/
def natToStrGo : Nat → Nat → List Char
  | 0, _ => []
  | fuel + 1, n =>
    if n < 10 then [digitChar n] else natToStrGo fuel (n / 10) ++ [digitChar (n % 10)]

/-- Decimal rendering `f"{idx}"` for a natural number. -/
def natToStr (n : Nat) : List Char := natToStrGo (n + 1) n

/-- Model of `ingestion.py` lines 18-21: a clause stores only its encoded id and its
text (the constructor arguments `doc_id` and `idx` survive only inside the
id string). -/
structure Clause where
  id : List Char
  text : List Char
deriving DecidableEq

/-- Constructor `Clause(doc_id, idx, text)`: the id is `f"{doc_id}_c{idx}"`. -/
def mkClause (doc_id : List Char) (idx : Nat) (text : List Char) : Clause :=
  ⟨doc_id ++ '_' :: 'c' :: natToStr idx, text⟩

/--
The loop of `chunk` (`ingestion.py` lines 74-91): iterate over the split
parts; skip whitespace-only parts; append each remaining part to the buffer
and add its length to the running count; once the count reaches
`CHUNK_SIZE`, emit the stripped joined buffer as a clause and reseed the
buffer with the last `OVERLAP` characters of the emitted text; after the
loop, emit any remaining buffer as a final clause.
-/
def chunkLoop (doc_id : List Char) :
    List (List Char) → Nat → List (List Char) → List Clause → List Clause
  | [], _, current, clauses =>
    if current.isEmpty then clauses
    else clauses ++ [mkClause doc_id clauses.length (pyStrip current.flatten)]
  | p :: ps, tokens, current, clauses =>
    if (pyStrip p).isEmpty then chunkLoop doc_id ps tokens current clauses
    else
      if CHUNK_SIZE ≤ tokens + p.length then
        chunkLoop doc_id ps
          (lastN OVERLAP (pyStrip (current ++ [p]).flatten)).length
          [lastN OVERLAP (pyStrip (current ++ [p]).flatten)]
          (clauses ++ [mkClause doc_id clauses.length (pyStrip (current ++ [p]).flatten)])
      else chunkLoop doc_id ps (tokens + p.length) (current ++ [p]) clauses

/-- Model of `chunk(text, doc_id)` (`ingestion.py` lines 74-91). -/
def chunk (text : List Char) (doc_id : List Char) : List Clause :=
  chunkLoop doc_id (splitParts text) 0 [] []

/-- The overlap seeds (`keep = joined[-OVERLAP:]`) generated while running
the `chunk` loop, in order of generation; an instrumentation of `chunkLoop`
with identical branching. -/
def keepsLoop : List (List Char) → Nat → List (List Char) → List (List Char)
  | [], _, _ => []
  | p :: ps, tokens, current =>
    if (pyStrip p).isEmpty then keepsLoop ps tokens current
    else
      if CHUNK_SIZE ≤ tokens + p.length then
        lastN OVERLAP (pyStrip (current ++ [p]).flatten) ::
          keepsLoop ps (lastN OVERLAP (pyStrip (current ++ [p]).flatten)).length
            [lastN OVERLAP (pyStrip (current ++ [p]).flatten)]
      else keepsLoop ps (tokens + p.length) (current ++ [p])

/-- All overlap seeds generated while chunking `text`. -/
def chunkKeeps (text : List Char) : List (List Char) :=
  keepsLoop (splitParts text) 0 []

/-- An overlap seed is well-behaved when it has the full `OVERLAP` length
and does not begin with whitespace (so that stripping the next chunk's
buffer leaves the seed intact at its front). -/
def goodKeep (kp : List Char) : Bool :=
  (kp.length == OVERLAP) &&
    (match kp.head? with
     | some c => !isWS c
     | none => false)

/-- The texts of a clause list. -/
def clauseTexts (cs : List Clause) : List (List Char) :=
  cs.map Clause.text

/-- The spec's reconstruction: join the chunk texts in order after removing
each non-first chunk's leading `OVERLAP`-character overlap duplicate. -/
def recon : List (List Char) → List Char
  | [] => []
  | t :: ts => t ++ (ts.map (List.drop OVERLAP)).flatten

/-! ### `add_clauses` payload construction (`vector_store.py` lines 159-170) -/

/-- Python `s.split('_')` (scan left to right, cut at every underscore). -/
def splitUnderscore (acc : List Char) : List Char → List (List Char)
  | [] => [acc.reverse]
  | '_' :: r => acc.reverse :: splitUnderscore [] r
  | c :: r => splitUnderscore (c :: acc) r

/-- Python `s.split('_c')` (scan left to right, cut at every non-overlapping
occurrence of the two-character separator). -/
def splitUC (acc : List Char) : List Char → List (List Char)
  | [] => [acc.reverse]
  | '_' :: 'c' :: r => acc.reverse :: splitUC [] r
  | c :: r => splitUC (c :: acc) r

/-- Python `'_c' in s`. -/
def containsUC : List Char → Bool
  | [] => false
  | '_' :: 'c' :: _ => true
  | _ :: r => containsUC r

/-- Python `int(s)` on a decimal-digit string; `none` models the
`ValueError` raised on a non-numeric string (signs, spaces and Unicode
digits are not modelled). -/
def pyInt (ds : List Char) : Option Nat :=
  if ds.isEmpty || !(ds.all Char.isDigit) then none
  else some (ds.foldl (fun a c => a * 10 + (c.toNat - 48)) 0)

/-- The payload stored with each point by `add_clauses`
(`vector_store.py` lines 163-168): `doc_id` is recovered as
`clause.id.split('_')[0]` and `chunk_index` as
`int(clause.id.split('_c')[1])` when `'_c'` occurs in the id, else `0`. -/
structure StoredPayload where
  clause_id : List Char
  text : List Char
  doc_id : List Char
  chunk_index : Option Nat
deriving DecidableEq

/-- The payload `add_clauses` builds for one clause. -/
def add_clauses_payload (c : Clause) : StoredPayload :=
  { clause_id := c.id
    text := c.text
    doc_id := (splitUnderscore [] c.id).headD []
    chunk_index :=
      if containsUC c.id then pyInt ((splitUC [] c.id).getD 1 []) else some 0 }

/-! ### `_generate_embeddings` (`vector_store.py` lines 62-119)

The Hugging Face endpoint is modelled as an oracle assigning to each HTTP
request (numbered in call order) a response: a 200 with a parsed embedding,
a 503 "model loading", or another error status.  The source processes the
texts one request at a time, appending the parsed embedding on a 200 and a
zero vector on a non-503 error, and on a 503 sleeps and returns the result
of re-running the whole batch from scratch (discarding everything
accumulated so far).  Since that recursion has no bound, the call is
modelled as a big-step relation between inputs and results. -/

/-- Embedding dimension of the default model
`sentence-transformers/all-MiniLM-L6-v2`. -/
def dimension : Nat := 384

/-- The zero-vector fallback `[0.0] * self.dimension`. -/
def zeroVec : List ℚ := List.replicate dimension 0

/-- One response of the embedding endpoint. -/
inductive HfResp where
  | ok (v : List ℚ)
  | loading
  | err
deriving DecidableEq

/-- Relation `GenLoop o T n ts acc r`: started with full text batch `T`, with `n`
requests already issued, `ts` texts still to process and `acc` embeddings
accumulated in the current pass, the call returns `r`. -/
inductive GenLoop (o : Nat → HfResp) (T : List (List Char)) :
    Nat → List (List Char) → List (List ℚ) → List (List ℚ) → Prop where
  | done (n : Nat) (acc : List (List ℚ)) : GenLoop o T n [] acc acc
  | ok (n : Nat) (t : List Char) (ts : List (List Char)) (acc : List (List ℚ))
      (v : List ℚ) (r : List (List ℚ)) :
      o n = HfResp.ok v → GenLoop o T (n + 1) ts (acc ++ [v]) r →
      GenLoop o T n (t :: ts) acc r
  | fallback (n : Nat) (t : List Char) (ts : List (List Char))
      (acc : List (List ℚ)) (r : List (List ℚ)) :
      o n = HfResp.err → GenLoop o T (n + 1) ts (acc ++ [zeroVec]) r →
      GenLoop o T n (t :: ts) acc r
  | retry (n : Nat) (t : List Char) (ts : List (List Char))
      (acc : List (List ℚ)) (r : List (List ℚ)) :
      o n = HfResp.loading → GenLoop o T (n + 1) T [] r →
      GenLoop o T n (t :: ts) acc r

/-- Predicate: `_generate_embeddings(texts)` returns `r` under response oracle `o`. -/
def generate_embeddings (o : Nat → HfResp) (T : List (List Char))
    (r : List (List ℚ)) : Prop :=
  GenLoop o T 0 T [] r

/-! ### `search` and `hybrid_search` (`vector_store.py` lines 185-242, 344-365) -/

/-- The metadata dict attached to each search result
(`vector_store.py` lines 229-233). -/
structure SearchMeta where
  point_id : Nat
  doc_id : List Char
  chunk_index : Option Nat
deriving DecidableEq

/-- One `(Clause, similarity_score, metadata)` result tuple. -/
abbrev RItem := Clause × ℚ × SearchMeta

/-- The similarity score of a result tuple (`x[1]` in the source). -/
def itemScore (it : RItem) : ℚ := it.2.1

/-- Python `s.lower()` (ASCII case folding). -/
def lowerList (cs : List Char) : List Char := cs.map Char.toLower

/-- Python `needle in hay` for strings: substring containment. -/
def containsSeq (needle : List Char) : List Char → Bool
  | [] => needle.isEmpty
  | c :: t => needle.isPrefixOf (c :: t) || containsSeq needle t

/-- The per-candidate boost of `hybrid_search` (`vector_store.py` lines
351-356): multiply the score by 1.1 (= 11/10) when the lowercased clause
text contains at least one lowercased keyword, else keep it. -/
def kwBoost (keywords : List (List Char)) (it : RItem) : RItem :=
  if keywords.any (fun kw => containsSeq (lowerList kw) (lowerList it.1.text)) then
    (it.1, itemScore it * (11 / 10 : ℚ), it.2.2)
  else it

/-- Stable insertion (equal scores keep their original relative order) used
to model Python's stable `list.sort(key=lambda x: x[1], reverse=True)`. -/
def insertDesc (x : RItem) : List RItem → List RItem
  | [] => [x]
  | y :: ys => if itemScore y < itemScore x then x :: y :: ys else y :: insertDesc x ys

/-- Stable descending sort by score. -/
def sortDesc (l : List RItem) : List RItem :=
  l.foldl (fun acc x => insertDesc x acc) []

/-- Model of `hybrid_search(query, keywords, k)` (`vector_store.py` lines 344-365),
parameterised by the candidate pool `semantic_results` that the source
obtains from `self.search(query, k=k*2)`: when the keyword list is empty
return the first `k` candidates unchanged, otherwise boost, stably re-sort
descending by score and truncate to `k`. -/
def hybrid_search (semantic_results : List RItem) (keywords : List (List Char))
    (k : Nat) : List RItem :=
  if keywords.isEmpty then semantic_results.take k
  else (sortDesc (semantic_results.map (kwBoost keywords))).take k

/-! ### Index state, `clear_collection`, `delete_by_document`
(`vector_store.py` lines 299-342) -/

/-- A stored point of the vector index (vector omitted: no claim depends on
it). -/
structure QPoint where
  pid : Nat
  payload : StoredPayload
deriving DecidableEq

/-- The `scroll` page size hard-coded in `clear_collection`
(`vector_store.py` line 304): `limit=10000`. -/
def SCROLL_LIMIT : Nat := 10000

/-- Model of `clear_collection` (`vector_store.py` lines 299-322) acting on the index
state: scroll one page of at most `SCROLL_LIMIT` points, and when it is
non-empty delete exactly the points whose ids were scrolled. -/
def clear_collection (s : List QPoint) : List QPoint :=
  if (s.take SCROLL_LIMIT).isEmpty then s
  else s.filter (fun p => decide (p.pid ∉ (s.take SCROLL_LIMIT).map QPoint.pid))

/-- Model of `delete_by_document(doc_id)` (`vector_store.py` lines 324-342):
`deleteOk` is whether the index delete call succeeds; the return value is
`1` on success (whatever matched, including nothing) and `0` on failure,
and on success the index drops every point whose payload `doc_id` matches. -/
def delete_by_document (deleteOk : Bool) (s : List QPoint) (d : List Char) :
    Nat × List QPoint :=
  if deleteOk then (1, s.filter (fun p => decide (p.payload.doc_id ≠ d))) else (0, s)

/-! ### `search` (`vector_store.py` lines 185-242) -/

/-- A raw hit returned by the vector index. -/
structure QHit where
  hid : Nat
  score : ℚ
  payload : StoredPayload
deriving DecidableEq

/-- Result-tuple construction from a hit (`vector_store.py` lines 218-235):
the clause is rebuilt from the payload and its id overridden with the stored
`clause_id`. -/
def hitToItem (h : QHit) : RItem :=
  (⟨h.payload.clause_id, h.payload.text⟩, h.score,
    ⟨h.hid, h.payload.doc_id, h.payload.chunk_index⟩)

/-- Model of `search(query, k, doc_filter)` (`vector_store.py` lines 185-242) with the
two remote calls abstracted: `embedO` is the outcome of embedding the query
(`_generate_embeddings([query])[0]`, `Except.error` when it raises), `idxO`
the outcome of the index search for a query vector, filter and limit.  Any
failure is caught by the blanket `except` and turned into `[]`. -/
def search (embedO : Except (List Char) (List ℚ))
    (idxO : List ℚ → Option (List Char) → Nat → Except (List Char) (List QHit))
    (k : Nat) (docFilter : Option (List Char)) : List RItem :=
  match embedO with
  | .error _ => []
  | .ok v =>
    match idxO v docFilter k with
    | .error _ => []
    | .ok hits => hits.map hitToItem

/-! ### Concrete verification inputs

`CHUNK_SIZE`-scale inputs used to instantiate the chunking theorems.  `witT`
is a well-behaved two-chunk text; `cexT` is crafted so that the overlap seed
of its first chunk begins with a space (the space sits exactly `OVERLAP`
characters before the end of the first chunk). -/

/-- Text `"a" * 2000`. -/
def witA : List Char := List.replicate 2000 'a'

/-- Text `"b" * 100`. -/
def witB : List Char := List.replicate 100 'b'

/-- Text `"a" * 2000 + ". " + "b" * 100`. -/
def witT : List Char := witA ++ '.' :: ' ' :: witB

/-- Text `"x" * 1800 + " " + "x" * 199` (2000 characters, space at index 1800). -/
def cexA : List Char := List.replicate 1800 'x' ++ ' ' :: List.replicate 199 'x'

/-- Text `cexA + ". "`. -/
def cexT : List Char := cexA ++ ['.', ' ']

/-- An index state holding one more point than `clear_collection`'s scroll
page size, with distinct point ids and arbitrary payloads. -/
def bigState : List QPoint :=
  (List.range (SCROLL_LIMIT + 1)).map (fun i => ⟨i, ⟨[], [], [], none⟩⟩)

/-! ## Toolkit lemmas -/

theorem splitGoF_flatten : ∀ (fuel : Nat) (acc rest : List Char),
    (splitGoF fuel acc rest).flatten = acc.reverse ++ rest := by
  intro fuel
  induction fuel with
  | zero => intro acc rest; simp [splitGoF]
  | succ n ih =>
    intro acc rest
    unfold splitGoF
    split
    · simp
    · simp [ih, List.takeWhile_append_dropWhile]
    · simp [ih]
    · simp [ih]
    · simp [ih]
    · simp [ih]

/-- Re-joining the split parts reproduces the source text. -/
theorem splitParts_flatten (t : List Char) : (splitParts t).flatten = t := by
  simp [splitParts, splitGoF_flatten]

/-- A character that starts no delimiter is simply shifted to the
accumulator by the scanner. -/
theorem splitGoF_step (fuel : Nat) (acc : List Char) (c : Char) (r : List Char)
    (h1 : c ≠ '\n') (h2 : c ≠ '.') (h3 : c ≠ '?') (h4 : c ≠ '!') :
    splitGoF (fuel + 1) acc (c :: r) = splitGoF fuel (c :: acc) r := by
  conv_lhs => unfold splitGoF
  split
  · rename_i heq; exact absurd heq (by simp)
  · rename_i heq; rw [List.cons_eq_cons] at heq; exact absurd heq.1 h1
  · rename_i heq; rw [List.cons_eq_cons] at heq; exact absurd heq.1 h2
  · rename_i heq; rw [List.cons_eq_cons] at heq; exact absurd heq.1 h3
  · rename_i heq; rw [List.cons_eq_cons] at heq; exact absurd heq.1 h4
  · rename_i heq
    rw [List.cons_eq_cons] at heq
    obtain ⟨hc, hr⟩ := heq
    subst hc
    subst hr
    rfl

theorem splitGoF_noDelim : ∀ (xs : List Char) (fuel : Nat) (acc rest : List Char),
    noDelim xs →
    splitGoF (xs.length + fuel) acc (xs ++ rest) = splitGoF fuel (xs.reverse ++ acc) rest := by
  intro xs
  induction xs with
  | nil => intro fuel acc rest _; simp
  | cons c cs ih =>
    intro fuel acc rest h
    obtain ⟨h1, h2, h3, h4⟩ := h c (by simp)
    have hcs : noDelim cs := fun x hx => h x (by simp [hx])
    have hlen : (c :: cs).length + fuel = cs.length + fuel + 1 := by
      simp only [List.length_cons]; omega
    rw [hlen]
    show splitGoF (cs.length + fuel + 1) acc (c :: (cs ++ rest)) = _
    rw [splitGoF_step _ _ _ _ h1 h2 h3 h4, ih fuel (c :: acc) rest hcs]
    simp

/-- A delimiter-free text is not split at all. -/
theorem splitParts_noDelim (t : List Char) (h : noDelim t) : splitParts t = [t] := by
  have := splitGoF_noDelim t 1 [] [] h
  simp at this
  simpa [splitParts, splitGoF] using this

theorem noDelim_append {a b : List Char} (ha : noDelim a) (hb : noDelim b) :
    noDelim (a ++ b) := by
  intro c hc
  rcases List.mem_append.mp hc with h | h
  · exact ha c h
  · exact hb c h

theorem noDelim_cons {c : Char} {l : List Char}
    (h1 : c ≠ '\n') (h2 : c ≠ '.') (h3 : c ≠ '?') (h4 : c ≠ '!')
    (hl : noDelim l) : noDelim (c :: l) := by
  intro x hx
  rcases List.mem_cons.mp hx with h | h
  · subst h; exact ⟨h1, h2, h3, h4⟩
  · exact hl x h

theorem noDelim_replicate {c : Char} (n : Nat)
    (h1 : c ≠ '\n') (h2 : c ≠ '.') (h3 : c ≠ '?') (h4 : c ≠ '!') :
    noDelim (List.replicate n c) := by
  intro x hx
  rw [List.eq_of_mem_replicate hx]
  exact ⟨h1, h2, h3, h4⟩

theorem head?_replicate_pos {n : Nat} (c : Char) (h : 0 < n) :
    (List.replicate n c).head? = some c := by
  cases n with
  | zero => omega
  | succ m => simp [List.replicate_succ]

theorem getLast?_replicate_pos {n : Nat} (c : Char) (h : 0 < n) :
    (List.replicate n c).getLast? = some c := by
  rw [← List.head?_reverse, List.reverse_replicate]
  exact head?_replicate_pos c h

theorem dropWhile_eq_self_of_head {l : List Char}
    (h : ∀ x, l.head? = some x → isWS x = false) : l.dropWhile isWS = l := by
  cases l with
  | nil => rfl
  | cons a t =>
    rw [List.dropWhile_cons, if_neg]
    simp [h a rfl]

theorem pyStrip_eq_self {l : List Char}
    (h1 : ∀ x, l.head? = some x → isWS x = false)
    (h2 : ∀ x, l.getLast? = some x → isWS x = false) : pyStrip l = l := by
  unfold pyStrip
  rw [dropWhile_eq_self_of_head h1]
  rw [dropWhile_eq_self_of_head (by simpa [List.head?_reverse] using h2)]
  exact List.reverse_reverse l

theorem pyStrip_replicate {n : Nat} (c : Char) (h0 : 0 < n) (hc : isWS c = false) :
    pyStrip (List.replicate n c) = List.replicate n c := by
  apply pyStrip_eq_self
  · intro x hx
    rw [head?_replicate_pos c h0] at hx
    cases hx
    exact hc
  · intro x hx
    rw [getLast?_replicate_pos c h0] at hx
    cases hx
    exact hc

theorem isEmpty_replicate_pos {n : Nat} (c : Char) (h0 : 0 < n) :
    (List.replicate n c).isEmpty = false := by
  cases n with
  | zero => omega
  | succ m => simp [List.replicate_succ]

/-! ## C3: a single oversized token -/

/-- Generic evaluation of `chunk` on a delimiter-free, non-whitespace text of
length at least `CHUNK_SIZE`: the loop closes one chunk holding the whole
trimmed text and then flushes the overlap seed as a second, final clause. -/
theorem chunk_single_token_aux (T D : List Char)
    (hsplit : splitParts T = [T]) (hws : (pyStrip T).isEmpty = false)
    (hlen : CHUNK_SIZE ≤ T.length) :
    chunk T D =
      [mkClause D 0 (pyStrip T), mkClause D 1 (pyStrip (lastN OVERLAP (pyStrip T)))] := by
  unfold chunk
  rw [hsplit]
  unfold chunkLoop
  rw [if_neg (by simp [hws])]
  rw [if_pos (by simpa using hlen)]
  simp
  unfold chunkLoop
  simp

/-- C3 (corrected): an input that is a single token (no split delimiter, not
whitespace-only) of length at least `CHUNK_SIZE` does NOT produce one chunk;
it produces exactly two clauses: the trimmed token, then a final
pure-overlap clause holding the (stripped) last `OVERLAP` characters of it. -/
theorem chunk_single_token (T D : List Char)
    (hsplit : splitParts T = [T]) (hws : (pyStrip T).isEmpty = false)
    (hlen : CHUNK_SIZE ≤ T.length) :
    chunk T D =
      [mkClause D 0 (pyStrip T), mkClause D 1 (pyStrip (lastN OVERLAP (pyStrip T)))] :=
  chunk_single_token_aux T D hsplit hws hlen

theorem chunk_single_token_witness :
    splitParts (List.replicate CHUNK_SIZE 'x') = [List.replicate CHUNK_SIZE 'x'] ∧
    (pyStrip (List.replicate CHUNK_SIZE 'x')).isEmpty = false ∧
    CHUNK_SIZE ≤ (List.replicate CHUNK_SIZE 'x').length ∧
    chunk (List.replicate CHUNK_SIZE 'x') ['d'] =
      [mkClause ['d'] 0 (pyStrip (List.replicate CHUNK_SIZE 'x')),
       mkClause ['d'] 1 (pyStrip (lastN OVERLAP (pyStrip (List.replicate CHUNK_SIZE 'x'))))] := by
  have h1 : splitParts (List.replicate CHUNK_SIZE 'x') = [List.replicate CHUNK_SIZE 'x'] :=
    splitParts_noDelim _
      (noDelim_replicate CHUNK_SIZE (by decide) (by decide) (by decide) (by decide))
  have h2 : (pyStrip (List.replicate CHUNK_SIZE 'x')).isEmpty = false := by
    rw [pyStrip_replicate 'x' (by norm_num [CHUNK_SIZE]) (by decide)]
    exact isEmpty_replicate_pos 'x' (by norm_num [CHUNK_SIZE])
  have h3 : CHUNK_SIZE ≤ (List.replicate CHUNK_SIZE 'x').length := by simp
  exact ⟨h1, h2, h3, chunk_single_token (List.replicate CHUNK_SIZE 'x') ['d'] h1 h2 h3⟩

/-- C3 counterexample: chunking the single 2000-character token `"x" * 2000`
yields two clauses, not one. -/
theorem chunk_single_token_counterexample :
    ¬ (chunk (List.replicate CHUNK_SIZE 'x') ['d']).length = 1 := by
  have h1 : splitParts (List.replicate CHUNK_SIZE 'x') = [List.replicate CHUNK_SIZE 'x'] :=
    splitParts_noDelim _
      (noDelim_replicate CHUNK_SIZE (by decide) (by decide) (by decide) (by decide))
  have h2 : (pyStrip (List.replicate CHUNK_SIZE 'x')).isEmpty = false := by
    rw [pyStrip_replicate 'x' (by norm_num [CHUNK_SIZE]) (by decide)]
    exact isEmpty_replicate_pos 'x' (by norm_num [CHUNK_SIZE])
  rw [chunk_single_token_aux (List.replicate CHUNK_SIZE 'x') ['d'] h1 h2 (by simp)]
  simp

/-! ## Whitespace-removal toolkit -/

theorem removeWS_append (a b : List Char) :
    removeWS (a ++ b) = removeWS a ++ removeWS b := by
  simp [removeWS, List.filter_append]

theorem removeWS_dropWhile (l : List Char) :
    removeWS (l.dropWhile isWS) = removeWS l := by
  induction l with
  | nil => rfl
  | cons a t ih =>
    rw [List.dropWhile_cons]
    by_cases ha : isWS a = true
    · rw [if_pos ha, ih]
      simp [removeWS, ha]
    · rw [if_neg ha]

theorem removeWS_reverse (l : List Char) :
    removeWS l.reverse = (removeWS l).reverse := by
  simp [removeWS, List.filter_reverse]

theorem removeWS_pyStrip (l : List Char) : removeWS (pyStrip l) = removeWS l := by
  unfold pyStrip
  rw [removeWS_reverse, removeWS_dropWhile, removeWS_reverse, List.reverse_reverse,
    removeWS_dropWhile]

theorem removeWS_rstrip (l : List Char) : removeWS (rstripWS l) = removeWS l := by
  unfold rstripWS
  rw [removeWS_reverse, removeWS_dropWhile, removeWS_reverse, List.reverse_reverse]

theorem removeWS_eq_nil_iff (l : List Char) :
    removeWS l = [] ↔ ∀ c ∈ l, isWS c = true := by
  simp [removeWS, List.filter_eq_nil_iff]

theorem pyStrip_eq_nil_iff (l : List Char) : pyStrip l = [] ↔ removeWS l = [] := by
  constructor
  · intro h
    rw [← removeWS_pyStrip, h]
    rfl
  · intro h
    have hall : l.dropWhile isWS = [] :=
      List.dropWhile_eq_nil_iff.mpr (fun x hx => (removeWS_eq_nil_iff l).mp h x hx)
    simp [pyStrip, hall]

theorem removeWS_flatten_nil {L : List (List Char)}
    (h : ∀ p ∈ L, removeWS p = []) : removeWS L.flatten = [] := by
  induction L with
  | nil => rfl
  | cons p ps ih =>
    rw [List.flatten_cons, removeWS_append, h p (by simp),
      ih (fun q hq => h q (by simp [hq]))]
    rfl

/-! ## C7: empty, whitespace-only and short inputs -/

/-- When no part survives the whitespace filter, the loop emits nothing. -/
theorem chunkLoop_allskip (D : List Char) :
    ∀ (ps : List (List Char)) (t : Nat),
    (∀ p ∈ ps, (pyStrip p).isEmpty = true) → chunkLoop D ps t [] [] = [] := by
  intro ps
  induction ps with
  | nil => intro t _; simp [chunkLoop]
  | cons p ps ih =>
    intro t h
    unfold chunkLoop
    rw [if_pos (by simp [h p (by simp)])]
    exact ih t (fun q hq => h q (by simp [hq]))

/-- While the accumulated character count stays below `CHUNK_SIZE`, the loop
never closes a chunk: it just collects the non-whitespace parts and emits
one final clause (or nothing at all). -/
theorem chunkLoop_short (D : List Char) :
    ∀ (ps np : List (List Char)),
    np.flatten.length + ps.flatten.length < CHUNK_SIZE →
    chunkLoop D ps np.flatten.length np [] =
      (if (np ++ ps.filter (fun p => !(pyStrip p).isEmpty)).isEmpty then []
       else [mkClause D 0 (pyStrip (np ++ ps.filter (fun p => !(pyStrip p).isEmpty)).flatten)]) := by
  intro ps
  induction ps with
  | nil => intro np _; simp [chunkLoop]
  | cons p ps ih =>
    intro np hb
    have hlen : (p :: ps).flatten.length = p.length + ps.flatten.length := by
      simp only [List.flatten_cons, List.length_append]
    rw [hlen] at hb
    unfold chunkLoop
    by_cases hskip : (pyStrip p).isEmpty = true
    · rw [if_pos (by simp [hskip])]
      rw [ih np (by omega)]
      simp [hskip]
    · rw [if_neg (by simp [hskip])]
      rw [if_neg (by simp only [CHUNK_SIZE] at hb ⊢; omega)]
      have harg : np.flatten.length + p.length = (np ++ [p]).flatten.length := by
        simp only [List.flatten_append, List.flatten_cons, List.flatten_nil,
          List.append_nil, List.length_append]
      rw [harg, ih (np ++ [p]) (by rw [← harg]; omega)]
      have hkept : (pyStrip p).isEmpty = false := by
        cases h : (pyStrip p).isEmpty
        · rfl
        · exact absurd h hskip
      simp [hkept]

/-- C7 (corrected): chunking an empty or whitespace-only string yields the
empty sequence, and chunking a non-whitespace text shorter than `CHUNK_SIZE`
yields exactly one clause — whose text, however, is not the trimmed input
but the trimmed concatenation of the parts that survive the whitespace
filter (whitespace-only segments, e.g. paragraph-break delimiters, are
dropped). -/
theorem chunk_short_text (T D : List Char) :
    ((pyStrip T).isEmpty = true → chunk T D = []) ∧
    ((pyStrip T).isEmpty = false → T.length < CHUNK_SIZE →
      chunk T D =
        [mkClause D 0
          (pyStrip ((splitParts T).filter (fun p => !(pyStrip p).isEmpty)).flatten)]) := by
  constructor
  · intro hws
    have hnil : pyStrip T = [] := List.isEmpty_iff.mp hws
    have hrem : removeWS T = [] := (pyStrip_eq_nil_iff T).mp hnil
    have hall : ∀ c ∈ T, isWS c = true := (removeWS_eq_nil_iff T).mp hrem
    apply chunkLoop_allskip
    intro p hp
    have : removeWS p = [] := by
      apply (removeWS_eq_nil_iff p).mpr
      intro c hc
      apply hall
      rw [← splitParts_flatten T]
      exact List.mem_flatten.mpr ⟨p, hp, hc⟩
    exact List.isEmpty_iff.mpr ((pyStrip_eq_nil_iff p).mpr this)
  · intro hws hlen
    have hb : ([] : List (List Char)).flatten.length + (splitParts T).flatten.length
        < CHUNK_SIZE := by
      simpa [splitParts_flatten] using hlen
    have h := chunkLoop_short D (splitParts T) [] hb
    simp only [List.flatten_nil, List.length_nil, List.nil_append] at h
    unfold chunk
    rw [h, if_neg]
    intro hfil
    have hfil' : (splitParts T).filter (fun p => !(pyStrip p).isEmpty) = [] :=
      List.isEmpty_iff.mp hfil
    have hallp : ∀ p ∈ splitParts T, removeWS p = [] := by
      intro p hp
      have := List.filter_eq_nil_iff.mp hfil' p hp
      simp only [Bool.not_eq_true', Bool.not_eq_false] at this
      exact (pyStrip_eq_nil_iff p).mp (List.isEmpty_iff.mp this)
    have : removeWS T = [] := by
      rw [← splitParts_flatten T]
      exact removeWS_flatten_nil hallp
    rw [List.isEmpty_iff.mpr ((pyStrip_eq_nil_iff T).mpr this)] at hws
    cases hws

/-- C7 counterexample: `"a\n\nb"` is non-empty, not whitespace-only and far
shorter than `CHUNK_SIZE`, yet its single clause's text is `"ab"` — the
paragraph delimiter is dropped — not the trimmed input `"a\n\nb"`. -/
theorem chunk_short_text_counterexample :
    ¬ clauseTexts (chunk "a\n\nb".toList "d".toList) = [pyStrip "a\n\nb".toList] := by
  decide

theorem chunk_short_text_witness :
    ((pyStrip "  \n ".toList).isEmpty = true ∧ chunk "  \n ".toList "d".toList = []) ∧
    ((pyStrip "ab. cd".toList).isEmpty = false ∧ "ab. cd".toList.length < CHUNK_SIZE ∧
      chunk "ab. cd".toList "d".toList =
        [mkClause "d".toList 0
          (pyStrip ((splitParts "ab. cd".toList).filter
            (fun p => !(pyStrip p).isEmpty)).flatten)]) :=
  ⟨⟨by decide, (chunk_short_text "  \n ".toList "d".toList).1 (by decide)⟩,
   ⟨by decide, by decide,
    (chunk_short_text "ab. cd".toList "d".toList).2 (by decide) (by decide)⟩⟩

/-! ## C2 support: how `pyStrip` treats a buffer that starts with an
overlap seed -/

theorem head?_append_pos {α : Type} {a b : List α} (h : a ≠ []) :
    (a ++ b).head? = a.head? := by
  cases a with
  | nil => exact absurd rfl h
  | cons x t => rfl

theorem getLast?_append_pos {α : Type} {a b : List α} (h : b ≠ []) :
    (a ++ b).getLast? = b.getLast? := by
  rw [← List.head?_reverse, List.reverse_append, head?_append_pos, List.head?_reverse]
  simp [h]

theorem getLast?_cons_pos {α : Type} {x : α} {b : List α} (h : b ≠ []) :
    (x :: b).getLast? = b.getLast? := by
  cases b with
  | nil => exact absurd rfl h
  | cons y t => exact List.getLast?_cons_cons

theorem dropWhile_head_not {l : List Char} :
    ∀ c, (l.dropWhile isWS).head? = some c → isWS c = false := by
  induction l with
  | nil => intro c hc; cases hc
  | cons a t ih =>
    intro c hc
    rw [List.dropWhile_cons] at hc
    by_cases ha : isWS a = true
    · rw [if_pos ha] at hc
      exact ih c hc
    · rw [if_neg ha] at hc
      cases hc
      cases h : isWS a
      · rfl
      · exact absurd h ha

theorem pyStrip_getLast_not {l : List Char} :
    ∀ c, (pyStrip l).getLast? = some c → isWS c = false := by
  intro c hc
  unfold pyStrip at hc
  rw [List.getLast?_reverse] at hc
  exact dropWhile_head_not c hc

theorem getLast?_drop {α : Type} :
    ∀ (l : List α) (k : Nat), l.drop k ≠ [] → (l.drop k).getLast? = l.getLast? := by
  intro l
  induction l with
  | nil => intro k h; simp at h
  | cons a t ih =>
    intro k h
    cases k with
    | zero => rfl
    | succ m =>
      rw [List.drop_succ_cons] at h ⊢
      rw [ih m h]
      have ht : t ≠ [] := by
        intro he
        rw [he] at h
        simp at h
      exact (getLast?_cons_pos ht).symm

theorem getLast?_lastN (n : Nat) (l : List Char) (h : lastN n l ≠ []) :
    (lastN n l).getLast? = l.getLast? :=
  getLast?_drop l (l.length - n) h

theorem dropWhile_append' (p : Char → Bool) (a b : List Char) :
    List.dropWhile p (a ++ b) =
      if (List.dropWhile p a).isEmpty then List.dropWhile p b
      else List.dropWhile p a ++ b := by
  induction a with
  | nil => simp
  | cons c t ih =>
    rw [List.cons_append, List.dropWhile_cons, List.dropWhile_cons]
    by_cases hc : p c = true
    · rw [if_pos hc, if_pos hc, ih]
    · rw [if_neg hc, if_neg hc]
      simp

/-- Stripping a buffer that begins with a seed whose first and last
characters are not whitespace only right-strips the appended tail. -/
theorem pyStrip_keep_append {keep : List Char} (x : List Char)
    (hne : keep ≠ [])
    (hhead : ∀ c, keep.head? = some c → isWS c = false)
    (hlast : ∀ c, keep.getLast? = some c → isWS c = false) :
    pyStrip (keep ++ x) = keep ++ rstripWS x := by
  have h1 : (keep ++ x).dropWhile isWS = keep ++ x := by
    apply dropWhile_eq_self_of_head
    intro c hc
    rw [head?_append_pos hne] at hc
    exact hhead c hc
  unfold pyStrip
  rw [h1, List.reverse_append, dropWhile_append' isWS x.reverse keep.reverse]
  by_cases hx : (List.dropWhile isWS x.reverse).isEmpty = true
  · rw [if_pos hx]
    rw [dropWhile_eq_self_of_head (by
      intro c hc
      rw [List.head?_reverse] at hc
      exact hlast c hc)]
    rw [List.reverse_reverse]
    have hxnil : rstripWS x = [] := by
      unfold rstripWS
      rw [List.isEmpty_iff.mp hx]
      rfl
    rw [hxnil, List.append_nil]
  · rw [if_neg hx, List.reverse_append, List.reverse_reverse]
    rfl

theorem recon_snoc {A : List (List Char)} (t : List Char) (h : A ≠ []) :
    recon (A ++ [t]) = recon A ++ t.drop OVERLAP := by
  cases A with
  | nil => exact absurd rfl h
  | cons a as =>
    have h1 : recon ((a :: as) ++ [t])
        = a ++ ((as ++ [t]).map (List.drop OVERLAP)).flatten := rfl
    have h2 : recon (a :: as) = a ++ (as.map (List.drop OVERLAP)).flatten := rfl
    rw [h1, h2, List.map_append, List.flatten_append]
    simp [List.append_assoc]

theorem drop_keep {keep : List Char} (x : List Char) (h : keep.length = OVERLAP) :
    (keep ++ x).drop OVERLAP = x := by
  rw [← h]
  exact List.drop_left _ _

theorem goodKeep_unpack {kp : List Char} (h : goodKeep kp = true) :
    kp.length = OVERLAP ∧ (∀ c, kp.head? = some c → isWS c = false) ∧ kp ≠ [] := by
  unfold goodKeep at h
  rw [Bool.and_eq_true] at h
  obtain ⟨h1, h2⟩ := h
  have hlen : kp.length = OVERLAP := by simpa using h1
  refine ⟨hlen, ?_, ?_⟩
  · intro c hc
    rw [hc] at h2
    simp only [Bool.not_eq_true'] at h2
    exact h2
  · intro he
    rw [he] at hlen
    simp [OVERLAP] at hlen

theorem chunkLoop_nil (D : List Char) (tokens : Nat) (current : List (List Char))
    (clauses : List Clause) :
    chunkLoop D [] tokens current clauses =
      if current.isEmpty then clauses
      else clauses ++ [mkClause D clauses.length (pyStrip current.flatten)] := rfl

theorem chunkLoop_cons (D p : List Char) (ps : List (List Char)) (tokens : Nat)
    (current : List (List Char)) (clauses : List Clause) :
    chunkLoop D (p :: ps) tokens current clauses =
      if (pyStrip p).isEmpty then chunkLoop D ps tokens current clauses
      else
        if CHUNK_SIZE ≤ tokens + p.length then
          chunkLoop D ps
            (lastN OVERLAP (pyStrip (current ++ [p]).flatten)).length
            [lastN OVERLAP (pyStrip (current ++ [p]).flatten)]
            (clauses ++ [mkClause D clauses.length (pyStrip (current ++ [p]).flatten)])
        else chunkLoop D ps (tokens + p.length) (current ++ [p]) clauses := rfl

theorem keepsLoop_cons (p : List Char) (ps : List (List Char)) (tokens : Nat)
    (current : List (List Char)) :
    keepsLoop (p :: ps) tokens current =
      if (pyStrip p).isEmpty then keepsLoop ps tokens current
      else
        if CHUNK_SIZE ≤ tokens + p.length then
          lastN OVERLAP (pyStrip (current ++ [p]).flatten) ::
            keepsLoop ps (lastN OVERLAP (pyStrip (current ++ [p]).flatten)).length
              [lastN OVERLAP (pyStrip (current ++ [p]).flatten)]
        else keepsLoop ps (tokens + p.length) (current ++ [p]) := rfl

/-! ## C2: the reconstruction invariant of the chunk loop -/

/--
Main loop invariant after the first chunk has been closed: the buffer is
`keep :: np` where `keep` is the current overlap seed (full length, no
leading or trailing whitespace) and `np` the parts accumulated since; if
every future overlap seed is well-behaved, the whitespace-free content of
the reconstruction of the final clause list equals the content already
reconstructed from `acc` plus the content of `np` and of the remaining
parts.
-/
theorem chunkLoop_recon_keep (D : List Char) :
    ∀ (ps : List (List Char)) (keep : List Char) (np : List (List Char))
      (acc : List Clause) (tokens : Nat),
    acc ≠ [] →
    keep.length = OVERLAP →
    (∀ c, keep.head? = some c → isWS c = false) →
    (∀ c, keep.getLast? = some c → isWS c = false) →
    (keepsLoop ps tokens (keep :: np)).all goodKeep = true →
    removeWS (recon (clauseTexts (chunkLoop D ps tokens (keep :: np) acc)))
      = removeWS (recon (clauseTexts acc)) ++ removeWS np.flatten
        ++ removeWS ps.flatten := by
  intro ps
  induction ps with
  | nil =>
    intro keep np acc tokens hacc hklen hkhead hklast _
    have hkne : keep ≠ [] := by
      intro he
      rw [he] at hklen
      simp [OVERLAP] at hklen
    rw [chunkLoop_nil, if_neg (by simp)]
    have hflat : (keep :: np).flatten = keep ++ np.flatten := List.flatten_cons
    rw [hflat, pyStrip_keep_append np.flatten hkne hkhead hklast]
    have htexts : clauseTexts (acc ++ [mkClause D acc.length (keep ++ rstripWS np.flatten)])
        = clauseTexts acc ++ [keep ++ rstripWS np.flatten] := by
      simp [clauseTexts, mkClause]
    rw [htexts, recon_snoc _ (by simp [clauseTexts]; intro h; exact absurd h hacc)]
    rw [drop_keep _ hklen, removeWS_append, removeWS_rstrip]
    simp [removeWS, List.append_assoc]
  | cons p ps ih =>
    intro keep np acc tokens hacc hklen hkhead hklast hkeeps
    rw [keepsLoop_cons] at hkeeps
    rw [chunkLoop_cons]
    by_cases hskip : (pyStrip p).isEmpty = true
    · rw [if_pos hskip] at hkeeps ⊢
      rw [ih keep np acc tokens hacc hklen hkhead hklast hkeeps]
      have hp : removeWS p = [] :=
        (pyStrip_eq_nil_iff p).mp (List.isEmpty_iff.mp hskip)
      simp [removeWS_append, hp, List.append_assoc]
    · rw [if_neg hskip] at hkeeps ⊢
      by_cases hclose : CHUNK_SIZE ≤ tokens + p.length
      · rw [if_pos hclose] at hkeeps ⊢
        rw [List.all_cons, Bool.and_eq_true] at hkeeps
        obtain ⟨hgood, hrest⟩ := hkeeps
        have hkne : keep ≠ [] := by
          intro he
          rw [he] at hklen
          simp [OVERLAP] at hklen
        have hflat : ((keep :: np) ++ [p]).flatten = keep ++ (np.flatten ++ p) := by
          simp [List.append_assoc]
        rw [hflat, pyStrip_keep_append (np.flatten ++ p) hkne hkhead hklast] at hgood hrest ⊢
        set J : List Char := keep ++ rstripWS (np.flatten ++ p) with hJ
        obtain ⟨hklen', hkhead', hkne'⟩ := goodKeep_unpack hgood
        have hJlast : ∀ c, J.getLast? = some c → isWS c = false := by
          intro c hc
          rw [hJ, ← pyStrip_keep_append (np.flatten ++ p) hkne hkhead hklast] at hc
          exact pyStrip_getLast_not c hc
        have hklast' : ∀ c, (lastN OVERLAP J).getLast? = some c → isWS c = false := by
          intro c hc
          have hne2 : lastN OVERLAP J ≠ [] := by
            intro he
            rw [he] at hc
            cases hc
          rw [getLast?_lastN _ _ hne2] at hc
          exact hJlast c hc
        have hstep := ih (lastN OVERLAP J) [] (acc ++ [mkClause D acc.length J])
          (lastN OVERLAP J).length (by simp) hklen' hkhead' hklast' hrest
        rw [hstep]
        have htexts : clauseTexts (acc ++ [mkClause D acc.length J])
            = clauseTexts acc ++ [J] := by
          simp [clauseTexts, mkClause]
        rw [htexts, recon_snoc _ (by simp [clauseTexts]; intro h; exact absurd h hacc)]
        rw [hJ, drop_keep _ hklen]
        rw [removeWS_append, removeWS_rstrip, removeWS_append]
        simp [removeWS, List.append_assoc]
      · rw [if_neg hclose] at hkeeps ⊢
        have hcons : (keep :: np) ++ [p] = keep :: (np ++ [p]) := rfl
        rw [hcons] at hkeeps ⊢
        rw [ih keep (np ++ [p]) acc (tokens + p.length) hacc hklen hkhead hklast hkeeps]
        simp [removeWS_append, List.append_assoc]

/-- Loop invariant before any chunk has been closed. -/
theorem chunkLoop_recon_start (D : List Char) :
    ∀ (ps np : List (List Char)) (tokens : Nat),
    (keepsLoop ps tokens np).all goodKeep = true →
    removeWS (recon (clauseTexts (chunkLoop D ps tokens np [])))
      = removeWS np.flatten ++ removeWS ps.flatten := by
  intro ps
  induction ps with
  | nil =>
    intro np tokens _
    rw [chunkLoop_nil]
    by_cases hnp : np.isEmpty = true
    · rw [if_pos hnp]
      rw [List.isEmpty_iff.mp hnp]
      simp [clauseTexts, recon, removeWS]
    · rw [if_neg hnp]
      have hrec : recon (clauseTexts ([] ++ [mkClause D ([] : List Clause).length
          (pyStrip np.flatten)])) = pyStrip np.flatten ++ [] := rfl
      rw [hrec, List.append_nil, removeWS_pyStrip]
      simp [removeWS]
  | cons p ps ih =>
    intro np tokens hkeeps
    rw [keepsLoop_cons] at hkeeps
    rw [chunkLoop_cons]
    by_cases hskip : (pyStrip p).isEmpty = true
    · rw [if_pos hskip] at hkeeps ⊢
      rw [ih np tokens hkeeps]
      have hp : removeWS p = [] :=
        (pyStrip_eq_nil_iff p).mp (List.isEmpty_iff.mp hskip)
      simp [removeWS_append, hp, List.append_assoc]
    · rw [if_neg hskip] at hkeeps ⊢
      by_cases hclose : CHUNK_SIZE ≤ tokens + p.length
      · rw [if_pos hclose] at hkeeps ⊢
        rw [List.all_cons, Bool.and_eq_true] at hkeeps
        obtain ⟨hgood, hrest⟩ := hkeeps
        obtain ⟨hklen', hkhead', hkne'⟩ := goodKeep_unpack hgood
        set J : List Char := pyStrip ((np ++ [p]).flatten) with hJ
        have hklast' : ∀ c, (lastN OVERLAP J).getLast? = some c → isWS c = false := by
          intro c hc
          have hne2 : lastN OVERLAP J ≠ [] := by
            intro he
            rw [he] at hc
            cases hc
          rw [getLast?_lastN _ _ hne2] at hc
          rw [hJ] at hc
          exact pyStrip_getLast_not c hc
        have hstep := chunkLoop_recon_keep D ps (lastN OVERLAP J) []
          ([] ++ [mkClause D 0 J]) (lastN OVERLAP J).length (by simp)
          hklen' hkhead' hklast' hrest
        have hlen0 : ([] : List Clause).length = 0 := rfl
        rw [← hlen0] at hstep
        rw [hstep]
        have hJr : removeWS J = removeWS np.flatten ++ removeWS p := by
          rw [hJ, removeWS_pyStrip]
          simp [removeWS_append]
        have hrec : recon (clauseTexts ([] ++ [mkClause D ([] : List Clause).length J]))
            = J ++ [] := rfl
        rw [hrec, List.append_nil, hJr]
        simp [removeWS, removeWS_append, List.append_assoc]
      · rw [if_neg hclose] at hkeeps ⊢
        rw [ih (np ++ [p]) (tokens + p.length) hkeeps]
        simp [removeWS_append, List.append_assoc]

/-! ## C2: main theorem, witness input and counterexample input -/

theorem replicate_ne_nil {α : Type} {n : Nat} (c : α) (h : 0 < n) :
    List.replicate n c ≠ [] := by
  intro he
  have := congrArg List.length he
  simp at this
  omega

theorem isEmpty_eq_false_of_ne_nil {α : Type} {l : List α} (h : l ≠ []) :
    l.isEmpty = false := by
  cases l with
  | nil => exact absurd rfl h
  | cons a t => rfl

theorem removeWS_replicate {c : Char} (n : Nat) (hc : isWS c = false) :
    removeWS (List.replicate n c) = List.replicate n c := by
  apply List.filter_eq_self.mpr
  intro a ha
  rw [List.eq_of_mem_replicate ha]
  simp [hc]

theorem removeWS_cons_ws {c : Char} (l : List Char) (hc : isWS c = true) :
    removeWS (c :: l) = removeWS l := by
  simp [removeWS, hc]

theorem pyStrip_cons_ws {c : Char} (l : List Char) (hc : isWS c = true) :
    pyStrip (c :: l) = pyStrip l := by
  simp [pyStrip, List.dropWhile_cons, hc]

/-- Scanner step at a sentence delimiter `". "`. -/
theorem splitGoF_dot (m : Nat) (acc r : List Char) :
    splitGoF (m + 1) acc ('.' :: ' ' :: r) = acc.reverse :: ['.', ' '] :: splitGoF m [] r :=
  rfl

/-- Scanner step at the end of the input. -/
theorem splitGoF_nil (m : Nat) (acc : List Char) :
    splitGoF (m + 1) acc [] = [acc.reverse] :=
  rfl

/--
C2 (corrected, main theorem): if every overlap seed generated while chunking
`T` is well-behaved (`goodKeep`: full `OVERLAP` length and no leading
whitespace), then joining the clause texts after dropping each non-first
clause's leading `OVERLAP` characters reproduces `T` modulo whitespace
removal.  Without that proviso the property fails (see the counterexample):
stripping a chunk whose seed starts with whitespace shifts its text, so
dropping `OVERLAP` characters also drops new content.
-/
theorem chunk_reconstruction (T D : List Char)
    (hk : (chunkKeeps T).all goodKeep = true) :
    removeWS (recon (clauseTexts (chunk T D))) = removeWS T := by
  have h := chunkLoop_recon_start D (splitParts T) [] 0 hk
  unfold chunk
  rw [h, splitParts_flatten]
  simp [removeWS]

/-! Evaluation of the chunker on the witness input `witT`. -/

theorem witA_length : witA.length = 2000 := List.length_replicate _ _

theorem witB_length : witB.length = 100 := List.length_replicate _ _

theorem splitParts_witT : splitParts witT = [witA, ['.', ' '], witB] := by
  show splitGoF (witT.length + 1) [] witT = _
  have hlen : witT.length + 1 = witA.length + 103 := by
    show (witA ++ '.' :: ' ' :: witB).length + 1 = witA.length + 103
    rw [List.length_append, List.length_cons, List.length_cons, witB_length]
  rw [hlen]
  show splitGoF (witA.length + 103) [] (witA ++ ('.' :: ' ' :: witB)) = _
  rw [splitGoF_noDelim witA 103 [] ('.' :: ' ' :: witB)
    (noDelim_replicate 2000 (by decide) (by decide) (by decide) (by decide))]
  rw [show (103 : Nat) = 102 + 1 from rfl, splitGoF_dot]
  have h2 : splitGoF 102 [] witB = [witB] := by
    have hB := splitGoF_noDelim witB 2 [] []
      (noDelim_replicate 100 (by decide) (by decide) (by decide) (by decide))
    rw [List.append_nil] at hB
    rw [show (102 : Nat) = witB.length + 2 from by rw [witB_length]]
    rw [hB, show (2 : Nat) = 1 + 1 from rfl, splitGoF_nil, List.append_nil,
      List.reverse_reverse]
  rw [h2, List.append_nil, List.reverse_reverse]

theorem chunkKeeps_witT : chunkKeeps witT = [List.replicate 200 'a'] := by
  unfold chunkKeeps
  rw [splitParts_witT, keepsLoop_cons]
  have hwa : pyStrip witA = witA := pyStrip_replicate 'a' (by norm_num) (by decide)
  rw [if_neg (by
    rw [hwa, isEmpty_eq_false_of_ne_nil (show witA ≠ [] from replicate_ne_nil 'a' (by norm_num))]
    simp)]
  rw [if_pos (by rw [witA_length]; norm_num [CHUNK_SIZE])]
  have hk : lastN OVERLAP (pyStrip (([] : List (List Char)) ++ [witA]).flatten)
      = List.replicate 200 'a' := by
    simp only [List.nil_append, List.flatten_cons, List.flatten_nil, List.append_nil]
    rw [hwa]
    show witA.drop (witA.length - OVERLAP) = _
    rw [witA_length]
    show (List.replicate 2000 'a').drop (2000 - OVERLAP) = _
    rw [List.drop_replicate, show (2000 : Nat) - (2000 - OVERLAP) = 200 from by
      norm_num [OVERLAP]]
  rw [hk]
  rw [keepsLoop_cons, if_neg (by decide), if_neg (by
    rw [List.length_replicate, show ((['.', ' ']) : List Char).length = 2 from rfl]
    norm_num [CHUNK_SIZE])]
  rw [keepsLoop_cons]
  have hwb : pyStrip witB = witB := pyStrip_replicate 'b' (by norm_num) (by decide)
  rw [if_neg (by
    rw [hwb, isEmpty_eq_false_of_ne_nil (show witB ≠ [] from replicate_ne_nil 'b' (by norm_num))]
    simp)]
  rw [if_neg (by
    rw [List.length_replicate, show ((['.', ' ']) : List Char).length = 2 from rfl,
      witB_length]
    norm_num [CHUNK_SIZE])]
  rfl

theorem chunk_reconstruction_witness :
    (chunkKeeps witT).all goodKeep = true ∧
    removeWS (recon (clauseTexts (chunk witT ['d']))) = removeWS witT := by
  have hg : (chunkKeeps witT).all goodKeep = true := by
    rw [chunkKeeps_witT]
    decide
  exact ⟨hg, chunk_reconstruction witT ['d'] hg⟩

/-! Evaluation of the chunker on the counterexample input `cexT`, whose
first chunk's overlap seed begins with a space. -/

theorem cexA_length : cexA.length = 2000 := by
  show (List.replicate 1800 'x' ++ ' ' :: List.replicate 199 'x').length = 2000
  rw [List.length_append, List.length_replicate, List.length_cons, List.length_replicate]

theorem cexA_ne_nil : cexA ≠ [] := by
  intro h
  have h2 := congrArg List.length h
  rw [cexA_length, List.length_nil] at h2
  exact absurd h2 (by norm_num)

theorem pyStrip_cexA : pyStrip cexA = cexA := by
  apply pyStrip_eq_self
  · intro c hc
    rw [show cexA = List.replicate 1800 'x' ++ ' ' :: List.replicate 199 'x' from rfl,
      head?_append_pos (replicate_ne_nil 'x' (by norm_num)),
      head?_replicate_pos 'x' (by norm_num)] at hc
    cases hc
    decide
  · intro c hc
    rw [show cexA = List.replicate 1800 'x' ++ ' ' :: List.replicate 199 'x' from rfl,
      getLast?_append_pos (List.cons_ne_nil _ _),
      getLast?_cons_pos (replicate_ne_nil 'x' (by norm_num)),
      getLast?_replicate_pos 'x' (by norm_num)] at hc
    cases hc
    decide

theorem splitParts_cexT : splitParts cexT = [cexA, ['.', ' '], []] := by
  show splitGoF (cexT.length + 1) [] cexT = _
  have hlen : cexT.length + 1 = cexA.length + 3 := by
    show (cexA ++ ['.', ' ']).length + 1 = cexA.length + 3
    rw [List.length_append, show ((['.', ' ']) : List Char).length = 2 from rfl]
  rw [hlen]
  show splitGoF (cexA.length + 3) [] (cexA ++ ['.', ' ']) = _
  rw [splitGoF_noDelim cexA 3 [] ['.', ' ']
    (noDelim_append (noDelim_replicate 1800 (by decide) (by decide) (by decide) (by decide))
      (noDelim_cons (by decide) (by decide) (by decide) (by decide)
        (noDelim_replicate 199 (by decide) (by decide) (by decide) (by decide))))]
  rw [show (3 : Nat) = 2 + 1 from rfl, splitGoF_dot,
    show (2 : Nat) = 1 + 1 from rfl, splitGoF_nil]
  simp

theorem lastN_cexA : lastN OVERLAP cexA = ' ' :: List.replicate 199 'x' := by
  have h := List.drop_left (List.replicate 1800 'x') (' ' :: List.replicate 199 'x')
  rw [List.length_replicate] at h
  show cexA.drop (cexA.length - OVERLAP) = _
  rw [cexA_length]
  exact h

theorem chunk_cexT_eval :
    chunk cexT ['d'] =
      [mkClause ['d'] 0 cexA, mkClause ['d'] 1 (List.replicate 199 'x' ++ ['.'])] := by
  unfold chunk
  rw [splitParts_cexT, chunkLoop_cons]
  rw [if_neg (by
    rw [pyStrip_cexA, isEmpty_eq_false_of_ne_nil cexA_ne_nil]
    simp)]
  rw [if_pos (by simp [cexA_length, CHUNK_SIZE])]
  have hJ0 : pyStrip (([] : List (List Char)) ++ [cexA]).flatten = cexA := by
    simp only [List.nil_append, List.flatten_cons, List.flatten_nil, List.append_nil]
    exact pyStrip_cexA
  rw [hJ0, lastN_cexA]
  rw [chunkLoop_cons, if_neg (by decide), if_neg (by
    rw [List.length_cons, List.length_replicate,
      show ((['.', ' ']) : List Char).length = 2 from rfl]
    norm_num [CHUNK_SIZE])]
  rw [chunkLoop_cons, if_pos (by decide)]
  rw [chunkLoop_nil, if_neg (by decide)]
  have hfin : pyStrip ([' ' :: List.replicate 199 'x', ['.', ' ']] : List (List Char)).flatten
      = List.replicate 199 'x' ++ ['.'] := by
    simp only [List.flatten_cons, List.flatten_nil, List.append_nil]
    rw [show (' ' :: List.replicate 199 'x') ++ ['.', ' ']
        = ' ' :: (List.replicate 199 'x' ++ ['.', ' ']) from rfl]
    rw [pyStrip_cons_ws _ (by decide)]
    rw [pyStrip_keep_append ['.', ' '] (replicate_ne_nil 'x' (by norm_num))
      (by
        intro c hc
        rw [head?_replicate_pos 'x' (by norm_num)] at hc
        cases hc
        decide)
      (by
        intro c hc
        rw [getLast?_replicate_pos 'x' (by norm_num)] at hc
        cases hc
        decide)]
    rfl
  rw [show ([' ' :: List.replicate 199 'x'] ++ [['.', ' ']] : List (List Char))
      = [' ' :: List.replicate 199 'x', ['.', ' ']] from rfl] at *
  rw [hfin]
  rfl

/-- C2 counterexample: on `cexT` (= `"x"*1800 + " " + "x"*199 + ". "`), the
first chunk's overlap seed starts with a space, the second chunk's text is
left-stripped, and dropping its leading `OVERLAP` characters also drops the
sentence period — the reconstruction loses a non-whitespace character, so it
does not equal the input even modulo whitespace removal. -/
theorem chunk_reconstruction_counterexample :
    ¬ removeWS (recon (clauseTexts (chunk cexT ['d']))) = removeWS cexT := by
  rw [chunk_cexT_eval]
  have hrec : recon (clauseTexts [mkClause ['d'] 0 cexA,
      mkClause ['d'] 1 (List.replicate 199 'x' ++ ['.'])])
      = cexA ++ ((List.replicate 199 'x' ++ ['.']).drop OVERLAP ++ []) := rfl
  rw [hrec, List.drop_eq_nil_of_le (by
    rw [List.length_append, List.length_replicate,
      show ((['.']) : List Char).length = 1 from rfl]
    norm_num [OVERLAP]), List.append_nil, List.append_nil]
  have h1 : removeWS cexA = List.replicate 1800 'x' ++ List.replicate 199 'x' := by
    show removeWS (List.replicate 1800 'x' ++ ' ' :: List.replicate 199 'x') = _
    rw [removeWS_append, removeWS_cons_ws _ (by decide),
      removeWS_replicate _ (by decide), removeWS_replicate _ (by decide)]
  have h2 : removeWS cexT
      = (List.replicate 1800 'x' ++ List.replicate 199 'x') ++ ['.'] := by
    show removeWS (cexA ++ ['.', ' ']) = _
    rw [removeWS_append, h1, show removeWS ['.', ' '] = ['.'] from rfl]
  rw [h1, h2]
  intro h
  have hlen2 := congrArg List.length h
  simp only [List.length_append, List.length_replicate, List.length_cons,
    List.length_nil] at hlen2
  omega

/-! ## C1: the clause-id encoding is not preserved for doc_ids containing
underscores -/

/--
C1 (code_bug): `add_clauses` recovers the payload `doc_id` as
`clause.id.split('_')[0]`, so for the doc_id `"policy_1_deadbeef"` — the
very format `main.py` line 118 generates (`f"policy_{i+1}_{uuid...}"`) —
the clause produced by `chunk` gets the payload doc_id `"policy"`, not the
original doc_id: the id encoding invariant is broken for every doc_id
containing an underscore.
-/
theorem add_clauses_payload_docid_bug :
    (chunk "hello world".toList "policy_1_deadbeef".toList).map
        (fun c => (add_clauses_payload c).doc_id)
      = ["policy".toList] ∧ "policy".toList ≠ "policy_1_deadbeef".toList := by
  decide

/-! ## C4: the 503 retry is unbounded -/

/--
C4 counterexample: against a provider that answers 503 ("model loading") to
every request, `_generate_embeddings` never returns — there is no result
related to the call by the big-step semantics, because the source retries
the whole batch by unbounded recursion instead of retrying a bounded number
of times and substituting a zero vector.
-/
theorem embeddings_unbounded_retry_counterexample :
    ¬ ∃ r, generate_embeddings (fun _ => HfResp.loading) ["x".toList] r := by
  rintro ⟨r, hr⟩
  have key : ∀ (n : Nat) (ts : List (List Char)) (acc r' : List (List ℚ)),
      GenLoop (fun _ => HfResp.loading) ["x".toList] n ts acc r' → ts = [] := by
    intro n ts acc r' h
    induction h with
    | done _ _ => rfl
    | ok _ _ _ _ _ _ ho _ _ => exact absurd ho (by simp)
    | fallback _ _ _ _ _ ho _ _ => exact absurd ho (by simp)
    | retry _ _ _ _ _ _ _ ih => simp at ih
  have := key 0 ["x".toList] [] r hr
  simp at this

/--
C4 (corrected): the retry loop on 503 is unbounded (each 503 restarts the
whole batch and discards what was accumulated), and a zero vector is
substituted only for non-503 error responses, without retry.  The call
terminates with exactly one vector per input text provided the provider
stops answering 503 from some request index `N` on.
-/
theorem embeddings_terminate_when_503_stops
    (o : Nat → HfResp) (N : Nat) (T : List (List Char))
    (h : ∀ m, N ≤ m → o m ≠ HfResp.loading) :
    ∃ r, generate_embeddings o T r ∧ r.length = T.length := by
  have helper : ∀ (ts : List (List Char)) (n : Nat) (acc : List (List ℚ)),
      (∀ m, n ≤ m → o m ≠ HfResp.loading) →
      ∃ r, GenLoop o T n ts acc r ∧ r.length = acc.length + ts.length := by
    intro ts
    induction ts with
    | nil => intro n acc _; exact ⟨acc, GenLoop.done n acc, by simp⟩
    | cons t ts ih =>
      intro n acc hn
      cases ho : o n with
      | ok v =>
        obtain ⟨r, hr, hl⟩ := ih (n + 1) (acc ++ [v]) (fun m hm => hn m (by omega))
        exact ⟨r, GenLoop.ok n t ts acc v r ho hr, by simp at hl ⊢; omega⟩
      | err =>
        obtain ⟨r, hr, hl⟩ := ih (n + 1) (acc ++ [zeroVec]) (fun m hm => hn m (by omega))
        exact ⟨r, GenLoop.fallback n t ts acc r ho hr, by simp at hl ⊢; omega⟩
      | loading => exact absurd ho (hn n (by omega))
  have main : ∀ (k n : Nat), N ≤ n + k → ∀ (ts : List (List Char)) (acc : List (List ℚ)),
      ∃ r, GenLoop o T n ts acc r ∧
        (r.length = acc.length + ts.length ∨ r.length = T.length) := by
    intro k
    induction k with
    | zero =>
      intro n hn ts acc
      obtain ⟨r, hr, hl⟩ := helper ts n acc (fun m hm => h m (by omega))
      exact ⟨r, hr, Or.inl hl⟩
    | succ k ih =>
      intro n hn ts acc
      by_cases hN : N ≤ n
      · obtain ⟨r, hr, hl⟩ := helper ts n acc (fun m hm => h m (by omega))
        exact ⟨r, hr, Or.inl hl⟩
      · cases ts with
        | nil => exact ⟨acc, GenLoop.done n acc, Or.inl (by simp)⟩
        | cons t ts =>
          cases ho : o n with
          | ok v =>
            obtain ⟨r, hr, hl⟩ := ih (n + 1) (by omega) ts (acc ++ [v])
            refine ⟨r, GenLoop.ok n t ts acc v r ho hr, ?_⟩
            rcases hl with hl | hl
            · exact Or.inl (by simp at hl ⊢; omega)
            · exact Or.inr hl
          | err =>
            obtain ⟨r, hr, hl⟩ := ih (n + 1) (by omega) ts (acc ++ [zeroVec])
            refine ⟨r, GenLoop.fallback n t ts acc r ho hr, ?_⟩
            rcases hl with hl | hl
            · exact Or.inl (by simp at hl ⊢; omega)
            · exact Or.inr hl
          | loading =>
            obtain ⟨r, hr, hl⟩ := ih (n + 1) (by omega) T []
            refine ⟨r, GenLoop.retry n t ts acc r ho hr, ?_⟩
            rcases hl with hl | hl
            · exact Or.inr (by simpa using hl)
            · exact Or.inr hl
  obtain ⟨r, hr, hl⟩ := main N 0 (by omega) T []
  refine ⟨r, hr, ?_⟩
  rcases hl with hl | hl
  · simpa using hl
  · exact hl

theorem embeddings_terminate_witness :
    (∀ m, 1 ≤ m →
      (fun n => if n = 0 then HfResp.loading else HfResp.ok [1]) m ≠ HfResp.loading) ∧
    ∃ r, generate_embeddings (fun n => if n = 0 then HfResp.loading else HfResp.ok [1])
        ["q".toList] r ∧ r.length = ([("q".toList)] : List (List Char)).length := by
  have hp : ∀ m, 1 ≤ m →
      (fun n => if n = 0 then HfResp.loading else HfResp.ok [1]) m ≠ HfResp.loading := by
    intro m hm
    simp only
    rw [if_neg (by omega)]
    intro hcon
    exact HfResp.noConfusion hcon
  exact ⟨hp, embeddings_terminate_when_503_stops _ 1 _ hp⟩

/-! ## C5: `clear_collection` deletes only one scroll page -/

/-- With pairwise-distinct point ids, `clear_collection` removes exactly the
first `SCROLL_LIMIT` points and keeps the rest. -/
theorem clear_collection_drop {s : List QPoint}
    (hnd : (s.map QPoint.pid).Nodup) (hlen : SCROLL_LIMIT < s.length) :
    clear_collection s = s.drop SCROLL_LIMIT := by
  have hsne : s.take SCROLL_LIMIT ≠ [] := by
    rw [Ne, List.take_eq_nil_iff]
    rintro (h | h)
    · simp [SCROLL_LIMIT] at h
    · rw [h] at hlen
      simp at hlen
  unfold clear_collection
  rw [if_neg (by rw [isEmpty_eq_false_of_ne_nil hsne]; simp)]
  have hdisj : ∀ p ∈ s.drop SCROLL_LIMIT,
      p.pid ∉ (s.take SCROLL_LIMIT).map QPoint.pid := by
    have hnd' : ((s.take SCROLL_LIMIT).map QPoint.pid
        ++ (s.drop SCROLL_LIMIT).map QPoint.pid).Nodup := by
      rw [← List.map_append, List.take_append_drop]
      exact hnd
    rw [List.nodup_append] at hnd'
    intro p hp hmem
    exact hnd'.2.2 hmem (List.mem_map_of_mem QPoint.pid hp)
  have hfilter_split : ∀ (P : QPoint → Bool) (l : List QPoint) (n : Nat),
      l.filter P = (l.take n).filter P ++ (l.drop n).filter P := by
    intro P l n
    conv_lhs => rw [← List.take_append_drop n l]
    rw [List.filter_append]
  have h1 : (s.take SCROLL_LIMIT).filter
      (fun p => decide (p.pid ∉ (s.take SCROLL_LIMIT).map QPoint.pid)) = [] := by
    apply List.filter_eq_nil_iff.mpr
    intro p hp
    simp only [decide_eq_true_eq, Decidable.not_not]
    exact List.mem_map_of_mem QPoint.pid hp
  have h2 : (s.drop SCROLL_LIMIT).filter
      (fun p => decide (p.pid ∉ (s.take SCROLL_LIMIT).map QPoint.pid))
      = s.drop SCROLL_LIMIT := by
    apply List.filter_eq_self.mpr
    intro p hp
    simp only [decide_eq_true_eq]
    exact hdisj p hp
  rw [hfilter_split _ s SCROLL_LIMIT, h1, h2, List.nil_append]

/--
C5 (code_bug): `clear_collection` scrolls a single page of at most 10000
points and deletes only those; on an index holding 10001 points one point
survives, so the operation does not remove every point.
-/
theorem clear_collection_scroll_cap :
    clear_collection bigState = bigState.drop SCROLL_LIMIT ∧
    bigState.drop SCROLL_LIMIT ≠ [] := by
  have hnd : (bigState.map QPoint.pid).Nodup := by
    unfold bigState
    rw [List.map_map]
    have h1 : (QPoint.pid ∘ fun i => (⟨i, ⟨[], [], [], none⟩⟩ : QPoint)) = id := rfl
    rw [h1, List.map_id]
    exact List.nodup_range _
  have hlen : SCROLL_LIMIT < bigState.length := by
    unfold bigState
    rw [List.length_map, List.length_range]
    omega
  refine ⟨clear_collection_drop hnd hlen, ?_⟩
  intro he
  have hl := congrArg List.length he
  rw [List.length_drop] at hl
  unfold bigState at hl
  rw [List.length_map, List.length_range] at hl
  simp [SCROLL_LIMIT] at hl

/-! ## C6: the keyword boost inverts the order for non-positive scores -/

theorem insertDesc_nil (x : RItem) : insertDesc x [] = [x] := rfl

theorem insertDesc_cons (x y : RItem) (ys : List RItem) :
    insertDesc x (y :: ys) =
      if itemScore y < itemScore x then x :: y :: ys else y :: insertDesc x ys := rfl

/--
C6 counterexample: two candidates with equal raw score `-1/2` (cosine
similarity may be negative), of which exactly the first contains the
keyword `"icu"`.  The boost multiplies its score by 1.1, LOWERING it
(`-0.55 < -0.5`), so `hybrid_search` ranks the keyword-free clause first —
the claim's "keyword candidate above" fails when the shared score is not
positive.
-/
theorem hybrid_boost_counterexample :
    hybrid_search
      [(⟨"d_c0".toList, "icu care".toList⟩, (-1/2 : ℚ), ⟨1, ['d'], some 0⟩),
       (⟨"d_c1".toList, "general ward".toList⟩, (-1/2 : ℚ), ⟨2, ['d'], some 1⟩)]
      ["icu".toList] 2
      = [(⟨"d_c1".toList, "general ward".toList⟩, (-1/2 : ℚ), ⟨2, ['d'], some 1⟩),
         (⟨"d_c0".toList, "icu care".toList⟩, (-1/2 : ℚ) * (11 / 10), ⟨1, ['d'], some 0⟩)] := by
  have hbA : kwBoost ["icu".toList]
      (⟨"d_c0".toList, "icu care".toList⟩, (-1/2 : ℚ), ⟨1, ['d'], some 0⟩)
      = (⟨"d_c0".toList, "icu care".toList⟩, (-1/2 : ℚ) * (11 / 10), ⟨1, ['d'], some 0⟩) := by
    unfold kwBoost
    rw [if_pos (by decide)]
    rfl
  have hbB : kwBoost ["icu".toList]
      (⟨"d_c1".toList, "general ward".toList⟩, (-1/2 : ℚ), ⟨2, ['d'], some 1⟩)
      = (⟨"d_c1".toList, "general ward".toList⟩, (-1/2 : ℚ), ⟨2, ['d'], some 1⟩) := by
    unfold kwBoost
    rw [if_neg (by decide)]
  unfold hybrid_search
  rw [if_neg (by simp)]
  rw [List.map_cons, List.map_cons, List.map_nil, hbA, hbB]
  unfold sortDesc
  rw [List.foldl_cons, List.foldl_cons, List.foldl_nil, insertDesc_nil, insertDesc_cons]
  rw [if_pos (by
    show itemScore (⟨"d_c0".toList, "icu care".toList⟩, (-1/2 : ℚ) * (11 / 10),
        (⟨1, ['d'], some 0⟩ : SearchMeta))
      < itemScore (⟨"d_c1".toList, "general ward".toList⟩, (-1/2 : ℚ),
        (⟨2, ['d'], some 1⟩ : SearchMeta))
    simp only [itemScore]
    norm_num)]
  rfl

/--
C6 (corrected): for a candidate pool of two clauses with equal POSITIVE raw
score of which exactly one contains a keyword (lowercased containment), the
keyword-containing clause is boosted to `s * 1.1` and ranked first,
whatever the original pool order; for zero the boost ties (stable sort
keeps pool order) and for negative scores it inverts the order, hence the
positivity proviso.
-/
theorem hybrid_boost_positive_score
    (A B : Clause) (mA mB : SearchMeta) (s : ℚ) (kws : List (List Char)) (k : Nat)
    (hs : 0 < s) (hk : 2 ≤ k)
    (hA : (kws.any fun kw => containsSeq (lowerList kw) (lowerList A.text)) = true)
    (hB : (kws.any fun kw => containsSeq (lowerList kw) (lowerList B.text)) = false)
    (pool : List RItem)
    (hpool : pool = [(A, s, mA), (B, s, mB)] ∨ pool = [(B, s, mB), (A, s, mA)]) :
    hybrid_search pool kws k = [(A, s * (11 / 10 : ℚ), mA), (B, s, mB)] := by
  have hkne : kws.isEmpty = false := by
    cases kws with
    | nil => simp at hA
    | cons a t => rfl
  have hlt : s < s * (11 / 10 : ℚ) := by nlinarith
  have hbA : kwBoost kws (A, s, mA) = (A, s * (11 / 10 : ℚ), mA) := by
    unfold kwBoost
    rw [if_pos hA]
    rfl
  have hbB : kwBoost kws (B, s, mB) = (B, s, mB) := by
    unfold kwBoost
    rw [if_neg (by simp [hB])]
  unfold hybrid_search
  rw [if_neg (by rw [hkne]; simp)]
  have htake : ∀ x y : RItem, List.take k [x, y] = [x, y] := by
    intro x y
    apply List.take_of_length_le
    simp only [List.length_cons, List.length_nil]
    omega
  rcases hpool with rfl | rfl
  · rw [List.map_cons, List.map_cons, List.map_nil, hbA, hbB]
    unfold sortDesc
    rw [List.foldl_cons, List.foldl_cons, List.foldl_nil, insertDesc_nil, insertDesc_cons]
    rw [if_neg (by
      show ¬ itemScore (A, s * (11/10 : ℚ), mA) < itemScore (B, s, mB)
      simp only [itemScore]
      exact not_lt.mpr (le_of_lt hlt))]
    rw [insertDesc_nil]
    exact htake _ _
  · rw [List.map_cons, List.map_cons, List.map_nil, hbA, hbB]
    unfold sortDesc
    rw [List.foldl_cons, List.foldl_cons, List.foldl_nil, insertDesc_nil, insertDesc_cons]
    rw [if_pos (by
      show itemScore (B, s, mB) < itemScore (A, s * (11/10 : ℚ), mA)
      simpa only [itemScore] using hlt)]
    exact htake _ _

theorem hybrid_boost_positive_score_witness :
    (0 : ℚ) < 1 ∧ 2 ≤ 2 ∧
    ((["icu".toList] : List (List Char)).any
      fun kw => containsSeq (lowerList kw) (lowerList "icu care".toList)) = true ∧
    ((["icu".toList] : List (List Char)).any
      fun kw => containsSeq (lowerList kw) (lowerList "general ward".toList)) = false ∧
    hybrid_search
      [(⟨"d_c1".toList, "general ward".toList⟩, (1 : ℚ), ⟨2, ['d'], some 1⟩),
       (⟨"d_c0".toList, "icu care".toList⟩, (1 : ℚ), ⟨1, ['d'], some 0⟩)]
      ["icu".toList] 2
      = [(⟨"d_c0".toList, "icu care".toList⟩, (1 : ℚ) * (11 / 10 : ℚ), ⟨1, ['d'], some 0⟩),
         (⟨"d_c1".toList, "general ward".toList⟩, (1 : ℚ), ⟨2, ['d'], some 1⟩)] := by
  refine ⟨by norm_num, by norm_num, by decide, by decide, ?_⟩
  exact hybrid_boost_positive_score
    ⟨"d_c0".toList, "icu care".toList⟩ ⟨"d_c1".toList, "general ward".toList⟩
    ⟨1, ['d'], some 0⟩ ⟨2, ['d'], some 1⟩ 1 ["icu".toList] 2
    (by norm_num) (by norm_num) (by decide) (by decide) _ (Or.inr rfl)

/-! ## C8: `search` fails soft -/

/--
C8 (confirmed): whenever the embedding call or the index search call fails,
`search` returns the empty list — the blanket `except` turns any failure
into "no results" and nothing propagates to the caller.
-/
theorem search_fails_soft
    (embedO : Except (List Char) (List ℚ))
    (idxO : List ℚ → Option (List Char) → Nat → Except (List Char) (List QHit))
    (k : Nat) (df : Option (List Char)) :
    (∀ e, embedO = Except.error e → search embedO idxO k df = []) ∧
    (∀ v e, embedO = Except.ok v → idxO v df k = Except.error e →
      search embedO idxO k df = []) := by
  constructor
  · intro e he
    rw [he]
    rfl
  · intro v e hv hi
    rw [hv]
    show (match idxO v df k with
      | Except.error _ => ([] : List RItem)
      | Except.ok hits => hits.map hitToItem) = []
    rw [hi]

theorem search_fails_soft_witness :
    search (Except.error "connection refused".toList) (fun _ _ _ => Except.ok []) 5 none = [] ∧
    search (Except.ok [1]) (fun _ _ _ => Except.error "timeout".toList) 5 none = [] :=
  ⟨(search_fails_soft _ _ 5 none).1 _ rfl,
   (search_fails_soft _ _ 5 none).2 [1] _ rfl rfl⟩

/-! ## C9: empty keyword list -/

/--
C9 (confirmed): with an empty keyword list, `hybrid_search` returns exactly
the first `k` candidates of the semantic pool, unchanged and in order — no
boost, no re-sort.
-/
theorem hybrid_search_no_keywords (pool : List RItem) (k : Nat) :
    hybrid_search pool [] k = pool.take k :=
  rfl

/-! ## C10: `delete_by_document` returns a success flag -/

/--
C10 (confirmed): `delete_by_document` returns `1` exactly when the index
delete call succeeds and `0` on failure; the value does not depend on the
index state at all — in particular not on how many points matched (zero
included) — so it is a success flag, not a deletion count, and no failure
escapes.
-/
theorem delete_by_document_flag (deleteOk : Bool) (s s' : List QPoint) (d : List Char) :
    ((delete_by_document deleteOk s d).1 = if deleteOk then 1 else 0) ∧
    (delete_by_document deleteOk s d).1 = (delete_by_document deleteOk s' d).1 := by
  cases deleteOk <;> simp [delete_by_document]

end FinDoc

